import Mathlib

/-!
A verification development for the arbitrage-detection core
(`arbitrage_engine.cpp` / `types.h`).

Modelling conventions:
* IEEE-754 doubles are idealised as exact numbers.  Prices, latency
  samples and timestamps stay inside the rationals in the source's own
  computations, so they are embedded as `ℚ`; graph edge weights are
  `-log` of prices and live in `ℝ`.
* `price_graph_` is a dense matrix whose entries are either a finite
  weight or `+infinity` ("no edge"); we embed it as
  `ℕ → ℕ → Option ℝ` with `none` standing for `+infinity`.
* Wall-clock reads (`high_resolution_clock::now()`) are passed in as
  explicit parameters (latency samples, data ages, call times).
* The unbounded `while` loop of `extract_arbitrage_cycle`'s parent
  trace-back is embedded with an explicit fuel parameter; exhausting the
  fuel yields `none`, which never happens for the fuel values used here
  (in the C++ code the walk is bounded by the vertex count).
-/

namespace ArbScan

/-! ## Symbol parsing (`ArbitrageEngine::parse_symbol`) -/

/-- First index of a slash in the character list, mirroring
`std::string::find('/')` (`none` plays the role of `npos`). -/
def find_slash : List Char → Option ℕ
  | [] => none
  | c :: cs => if c = '/' then some 0 else (find_slash cs).map (· + 1)

/-- `ArbitrageEngine::parse_symbol`: split "BASE/QUOTE" at the first
slash, rejecting a missing slash, a leading slash, and a trailing
slash; everything after the first slash is the quote side. -/
def parse_symbol (s : List Char) : Option (List Char × List Char) :=
  match find_slash s with
  | none => none
  | some pos =>
    if pos = 0 ∨ pos = s.length - 1 then none
    else some (s.take pos, s.drop (pos + 1))

/-! ## Currency interning (`ArbitrageEngine::get_currency_index`) -/

/-- The key `currency + "_" + std::to_string(exchange)` used by
`get_currency_index`. -/
def mkKey (currency : List Char) (exchange : ℕ) : List Char :=
  currency ++ '_' :: Nat.toDigits 10 exchange

/-- First index of `key` in a list of keys; embeds the
`currency_indices_` hash-map lookup (indices are assigned densely in
insertion order, so the map is represented by its insertion list). -/
def lookup_index (key : List Char) : List (List Char) → Option ℕ
  | [] => none
  | k :: ks => if k = key then some 0 else (lookup_index key ks).map (· + 1)

/-- `currency_indices_` (with `currency_names_` the inverse view):
the list of interned keys, key `i` having index `i`. -/
structure CurrencyIndex where
  keys : List (List Char)
deriving DecidableEq

/-- `ArbitrageEngine::get_currency_index`: return the existing index of
the key, or assign the next free index (`currency_indices_.size()`) and
record the key. -/
def get_currency_index (ix : CurrencyIndex) (currency : List Char)
    (exchange : ℕ) : ℕ × CurrencyIndex :=
  match lookup_index (mkKey currency exchange) ix.keys with
  | some i => (i, ix)
  | none => (ix.keys.length, ⟨ix.keys ++ [mkKey currency exchange]⟩)

/-- A node id has been observed (interned) exactly when it is below the
number of interned keys, since indices are assigned densely. -/
def observed (ix : CurrencyIndex) (u : ℕ) : Prop :=
  u < ix.keys.length

/-! ## The price graph -/

/-- `MAX_EXCHANGES * MAX_SYMBOLS = 16 * 256`. -/
def graphSize : ℕ := 16 * 256

/-- The dense `price_graph_` matrix; `none` is `+infinity` (no edge). -/
def Graph : Type := ℕ → ℕ → Option ℝ

/-- The graph as the constructor leaves it: every in-range entry is
`+infinity` except that every in-range diagonal entry is set to `0.0`
("no cost to convert currency to itself"). -/
def initGraph : Graph := fun i j =>
  if i < graphSize ∧ j < graphSize then (if i = j then some 0 else none)
  else none

/-- Overwrite one matrix cell. -/
def set_edge (g : Graph) (i j : ℕ) (w : ℝ) : Graph := fun a b =>
  if a = i ∧ b = j then some w else g a b

/-! ## Market ticks and the graph updater -/

/-- `MarketTick` (the fields the detection core reads).  The
`char symbol[16]` buffer keeps at most 15 characters after `strncpy`. -/
structure MarketTick where
  exchange : ℕ
  symbol : List Char
  bid : ℚ
  ask : ℚ
  last_price : ℚ
  volume : ℚ
  sequence : ℕ
deriving DecidableEq

/-- The state touched by `update_price_graph`: the interning tables and
the price graph. -/
structure GraphState where
  currency_indices : CurrencyIndex
  price_graph : Graph

/-- `ArbitrageEngine::update_price_graph`: parse the symbol, intern both
endpoints, and (bounds permitting) write the forward edge
`-log(bid)` when `bid > 0` and the reverse edge `-log(1.0/ask)` when
`ask > 0`.  A bad symbol leaves the state unchanged; an out-of-range
index leaves the graph unchanged (the interning side effect has already
happened, as in the C++ member call). -/
noncomputable def update_price_graph (s : GraphState) (t : MarketTick) :
    GraphState :=
  match parse_symbol t.symbol with
  | none => s
  | some bq =>
    let r1 := get_currency_index s.currency_indices bq.1 t.exchange
    let r2 := get_currency_index r1.2 bq.2 t.exchange
    if graphSize ≤ r1.1 ∨ graphSize ≤ r2.1 then
      { s with currency_indices := r2.2 }
    else
      let g1 := if 0 < t.bid then
          set_edge s.price_graph r1.1 r2.1 (-Real.log (t.bid : ℝ))
        else s.price_graph
      let g2 := if 0 < t.ask then
          set_edge g1 r2.1 r1.1 (-Real.log (1 / (t.ask : ℝ)))
        else g1
      { currency_indices := r2.2, price_graph := g2 }

/-! ## Performance statistics (`PerformanceStats`) -/

/-- `PerformanceStats` (counters plus the EWMA latency estimate). -/
structure PerformanceStats where
  messages_processed : ℕ
  opportunities_found : ℕ
  false_positives : ℕ
  avg_latency_us : ℚ
deriving DecidableEq

/-- `PerformanceStats::update_latency`: `avg ← 0.9·avg + 0.1·sample`. -/
def update_latency (avg sample : ℚ) : ℚ :=
  9 / 10 * avg + 1 / 10 * sample

/-- Zero-initialised statistics, as in the `PerformanceStats`
constructor. -/
def initStats : PerformanceStats := ⟨0, 0, 0, 0⟩

/-! ## The ingress path (`ArbitrageEngine::update_price`) -/

/-- The engine state touched by `update_price`: the sequence counter,
the (possibly unallocated) bounded tick queue, and the statistics.  The
constructor leaves `tick_queue_` as `nullptr`, which is `none` here;
`some q` is an allocated bounded queue holding `q`. -/
structure IngressState where
  sequence_counter : ℕ
  tick_queue : Option (List MarketTick)
  queue_capacity : ℕ
  stats : PerformanceStats
deriving DecidableEq

/-- One call to `update_price`: exchange, symbol, prices, volume, plus
the measured enqueue latency sample (a wall-clock read, passed in). -/
structure UpdateCall where
  exch : ℕ
  symbol : List Char
  bid : ℚ
  ask : ℚ
  volume : ℚ
  latency : ℚ
deriving DecidableEq

/-- `ArbitrageEngine::update_price`: build the tick (consuming a
sequence number), then try to enqueue; on success bump
`messages_processed` and fold the latency sample into the EWMA; a null
queue or a full queue returns `false`. -/
def update_price (s : IngressState) (c : UpdateCall) : Bool × IngressState :=
  let tick : MarketTick :=
    { exchange := c.exch, symbol := c.symbol.take 15, bid := c.bid,
      ask := c.ask, last_price := (c.bid + c.ask) / 2, volume := c.volume,
      sequence := s.sequence_counter }
  let s1 := { s with sequence_counter := s.sequence_counter + 1 }
  match s1.tick_queue with
  | none => (false, s1)
  | some q =>
    if q.length < s1.queue_capacity then
      (true,
        { s1 with
          tick_queue := some (q ++ [tick]),
          stats :=
            { s1.stats with
              messages_processed := s1.stats.messages_processed + 1,
              avg_latency_us :=
                update_latency s1.stats.avg_latency_us c.latency } })
    else (false, s1)

/-- A sequence of `update_price` calls, returning the list of results
in order together with the final state. -/
def run_updates : IngressState → List UpdateCall → List Bool × IngressState
  | s, [] => ([], s)
  | s, c :: cs =>
    let r := update_price s c
    let rest := run_updates r.2 cs
    (r.1 :: rest.1, rest.2)

/-! ## Cycle extraction (`ArbitrageEngine::extract_arbitrage_cycle`) -/

/-- `ArbitrageOpportunity` (the fields the detector fills in; the path
is kept as the list of node indices that the C++ renders into the path
string via `get_currency_name`). -/
structure ArbitrageOpportunity where
  path : List ℕ
  profit_percentage : ℝ
  confidence : ℕ
  max_volume : ℝ

/-- `ArbitrageOpportunity::is_profitable`. -/
def is_profitable (o : ArbitrageOpportunity) (min_profit : ℝ) : Prop :=
  min_profit < o.profit_percentage

/-- The parent-pointer walk of `extract_arbitrage_cycle`: follow
`parent` from the start node, recording nodes in order, until the node
is `-1` (`none`) or already visited.  Returns the recorded walk and the
final `current` value; `none` on fuel exhaustion (which the C++ loop,
bounded by the vertex count, never reaches for sufficient fuel). -/
def traceback (parent : ℕ → Option ℕ) :
    ℕ → List ℕ → Option ℕ → Option (List ℕ × Option ℕ)
  | 0, _, _ => none
  | _ + 1, walk, none => some (walk, none)
  | fuel + 1, walk, some cur =>
    if cur ∈ walk then some (walk, some cur)
    else traceback parent fuel (walk ++ [cur]) (parent cur)

/-- The suffix of the walk starting at the first occurrence of `a`,
mirroring `std::vector(std::find(cycle.begin(), cycle.end(), a),
cycle.end())`. -/
def drop_until (a : ℕ) : List ℕ → List ℕ
  | [] => []
  | x :: xs => if x = a then x :: xs else drop_until a xs

/-- The successive edges `(path[i], path[(i+1) % n])` of a cycle. -/
def cycle_edges (path : List ℕ) : List (ℕ × ℕ) :=
  path.zip (path.rotate 1)

/-- Sum of the graph weights along a list of edges; `none` as soon as
one edge is missing (`+infinity` absorbs the IEEE sum). -/
def edge_weight_sum (g : Graph) : List (ℕ × ℕ) → Option ℝ
  | [] => some 0
  | e :: es =>
    match g e.1 e.2, edge_weight_sum g es with
    | some w, some s => some (w + s)
    | _, _ => none

/-- Product of the edge conversion ratios `exp(-w)` along a list of
edges. -/
noncomputable def ratio_product (g : Graph) : List (ℕ × ℕ) → Option ℝ
  | [] => some 1
  | e :: es =>
    match g e.1 e.2, ratio_product g es with
    | some w, some p => some (Real.exp (-w) * p)
    | _, _ => none

/-- `total_log_return` of `extract_arbitrage_cycle`: the sum of the
graph weights around the cycle. -/
def cycleSum (g : Graph) (path : List ℕ) : Option ℝ :=
  edge_weight_sum g (cycle_edges path)

/-- The product of edge conversion ratios around the cycle. -/
noncomputable def cycleProd (g : Graph) (path : List ℕ) : Option ℝ :=
  ratio_product g (cycle_edges path)

/-- `ArbitrageEngine::calculate_confidence`: the sum of a profit term
(`min(|log_return|·100, 50)`), a path-length term
(`max(0, 50 − 10·len)`) and a freshness term
(`max(0, 50 − age_ms/100)`), cast to `uint32_t`.  Each term is
non-negative and the sum is at most 140, so the C++
`static_cast<uint32_t>` is truncation toward zero of a non-negative
double, i.e. `Nat.floor`. -/
noncomputable def calculate_confidence (path : List ℕ) (log_return : ℝ)
    (data_age_ms : ℝ) : ℕ :=
  ⌊min (|log_return| * 100) 50 + max 0 (50 - (path.length : ℝ) * 10)
      + max 0 (50 - data_age_ms / 100)⌋₊

/-- `ArbitrageEngine::estimate_max_volume`:
`max_position_size / path.size()`. -/
noncomputable def estimate_max_volume (max_position_size : ℝ)
    (path : List ℕ) : ℝ :=
  max_position_size / (path.length : ℝ)

/-- `ArbitrageEngine::extract_arbitrage_cycle`.  Walk the parent
pointers from `cycle_node`; reject if the walk hit `-1` or has fewer
than 3 nodes; locate the first revisited node in the walk and reverse
the suffix from there to obtain the cycle path; recompute
`total_log_return` around that path and the profit
`exp(-total) - 1`; reject a non-positive profit (a missing edge makes
the IEEE total `+infinity` and the profit `-1`, also rejected);
otherwise build the opportunity.  The C++ `dist` argument is unused by
the function body and omitted.  `data_age_ms` stands for the wall-clock
distance to `last_update_time_` read by `calculate_confidence`. -/
noncomputable def extract_arbitrage_cycle (g : Graph)
    (parent : ℕ → Option ℕ) (fuel : ℕ) (cycle_node : ℕ)
    (data_age_ms : ℝ) (max_position_size : ℝ) :
    Option ArbitrageOpportunity :=
  match traceback parent fuel [] (some cycle_node) with
  | none => none
  | some (cycle, fin) =>
    match fin with
    | none => none
    | some current =>
      if cycle.length < 3 then none
      else if current ∈ cycle then
        let arbPath := (drop_until current cycle).reverse
        match cycleSum g arbPath with
        | none => none
        | some total =>
          let profit := Real.exp (-total) - 1
          if profit ≤ 0 then none
          else some
            { path := arbPath,
              profit_percentage := profit,
              confidence := calculate_confidence arbPath total data_age_ms,
              max_volume := estimate_max_volume max_position_size arbPath }
      else none

/-! ## The detection loop body (`detect_arbitrage_opportunities`) -/

/-- The per-iteration emission step of `detect_arbitrage_opportunities`:
of the opportunities returned by `find_negative_cycles`, pass exactly
those with `is_profitable(min_profit_threshold)` to
`on_opportunity_detected`, bumping `opportunities_found` once per
emission; no other statistic is touched. -/
noncomputable def detect_arbitrage_step (min_profit_threshold : ℝ)
    (opps : List ArbitrageOpportunity) (st : PerformanceStats) :
    List ArbitrageOpportunity × PerformanceStats :=
  let emitted := opps.filter
    (fun o => decide (min_profit_threshold < o.profit_percentage))
  (emitted,
    { st with opportunities_found := st.opportunities_found + emitted.length })

/-! ## Rate limiting (`ArbitrageEngine::on_opportunity_detected`) -/

/-- The static rate-limiter state of `on_opportunity_detected`:
`last_alert` (seconds, as a rational timestamp) and
`alerts_this_second`.  The statics are initialised at the first call
with `last_alert = now` of that call and a zero counter. -/
structure RateState where
  last_alert : ℚ
  alerts_this_second : ℕ
deriving DecidableEq

/-- The window-reset prefix of `on_opportunity_detected`: if at least
one whole second has elapsed since `last_alert`
(`duration_cast<seconds>` truncates, so the test is `now − last ≥ 1`
for a non-negative elapsed time), restart the window at `now`. -/
def rate_reset (now : ℚ) (s : RateState) : RateState :=
  if 1 ≤ now - s.last_alert then ⟨now, 0⟩ else s

/-- The rate-limiting gate of `on_opportunity_detected` at wall-clock
`now`: reset the window if due, then drop silently when the counter has
reached `max_opportunities_per_second`, otherwise emit (store and fan
out) and count. -/
def on_opportunity_detected (cap : ℕ) (now : ℚ) (s : RateState) :
    Bool × RateState :=
  let s1 := rate_reset now s
  if cap ≤ s1.alerts_this_second then (false, s1)
  else (true, ⟨s1.last_alert, s1.alerts_this_second + 1⟩)

/-- A sequence of `on_opportunity_detected` calls at the given
wall-clock times, returning whether each call emitted. -/
def rate_run (cap : ℕ) : RateState → List ℚ → List Bool × RateState
  | s, [] => ([], s)
  | s, t :: ts =>
    let r := on_opportunity_detected cap t s
    let rest := rate_run cap r.2 ts
    (r.1 :: rest.1, rest.2)

/-! ## Initial state and concrete test fixtures -/

/-- The `ArbitrageEngine` constructor state: no interned currencies and
the freshly initialised graph. -/
def initial_graph_state : GraphState := ⟨⟨[]⟩, initGraph⟩

/-- A parent array describing the 3-cycle `0 → 1 → 2 → 0`
(as produced by Bellman-Ford relaxation over that cycle). -/
def p_C1 : ℕ → Option ℕ := fun n =>
  if n = 0 then some 1 else if n = 1 then some 2 else
  if n = 2 then some 0 else none

/-- A graph carrying weight `-1` on each edge of the 3-cycle
`2 → 1 → 0 → 2` (a strongly profitable triangle). -/
def g_C1 : Graph := fun i j =>
  if (i = 2 ∧ j = 1) ∨ (i = 1 ∧ j = 0) ∨ (i = 0 ∧ j = 2) then some (-1)
  else none

/-- A parent array in which node 3 hangs off the 2-cycle `1 ↔ 2`
(node 3's parent is 2, and 1 and 2 are each other's parents), as the
reused Bellman-Ford parent array can produce. -/
def p_C2 : ℕ → Option ℕ := fun n =>
  if n = 3 then some 2 else if n = 2 then some 1 else
  if n = 1 then some 2 else none

/-- A graph carrying weight `-1` on the two edges of the 2-cycle
`1 ↔ 2`. -/
def g_C2 : Graph := fun i j =>
  if (i = 1 ∧ j = 2) ∨ (i = 2 ∧ j = 1) then some (-1) else none

/-- The same 3-cycle parents as `p_C1`. -/
def p_C9 : ℕ → Option ℕ := fun n =>
  if n = 0 then some 1 else if n = 1 then some 2 else
  if n = 2 then some 0 else none

/-- A graph carrying weight `+1` on each edge of the 3-cycle
`2 → 1 → 0 → 2`: the cycle exists but its recomputed profit is
`exp(-3) - 1 < 0`. -/
def g_C9 : Graph := fun i j =>
  if (i = 2 ∧ j = 1) ∨ (i = 1 ∧ j = 0) ∨ (i = 0 ∧ j = 2) then some 1
  else none

/-- A well-formed tick `A/B` with `bid = ask = 1` on exchange 0. -/
def tick_C4 : MarketTick := ⟨0, ['A', '/', 'B'], 1, 1, 1, 0, 0⟩

/-- A degenerate but parseable tick `A/A` with `bid = ask = 2` on
exchange 0: base and quote are the same currency. -/
def tick_C4x : MarketTick := ⟨0, ['A', '/', 'A'], 2, 2, 2, 0, 0⟩

/-! ## Lemmas about symbol parsing -/

lemma find_slash_append (a b : List Char) (ha : '/' ∉ a) :
    find_slash (a ++ '/' :: b) = some a.length := by
  induction a with
  | nil => simp [find_slash]
  | cons c cs ih =>
    simp only [List.mem_cons, not_or] at ha
    have hc : ¬ c = '/' := fun h => ha.1 h.symm
    simp [find_slash, hc, ih ha.2]

lemma find_slash_some (s : List Char) (p : ℕ) (h : find_slash s = some p) :
    ∃ u v, s = u ++ '/' :: v ∧ u.length = p ∧ '/' ∉ u := by
  induction s generalizing p with
  | nil => simp [find_slash] at h
  | cons c cs ih =>
    by_cases hc : c = '/'
    · subst hc
      simp [find_slash] at h
      exact ⟨[], cs, by simp, by simp [h], by simp⟩
    · simp [find_slash, hc] at h
      obtain ⟨q, hq, hqp⟩ := h
      obtain ⟨u, v, hs, hu, hnu⟩ := ih q hq
      refine ⟨c :: u, v, by simp [hs], by simp [hu, hqp], ?_⟩
      simp only [List.mem_cons, not_or]
      exact ⟨fun hh => hc hh.symm, hnu⟩

/-- Claim C10: `parse_symbol` splits at the first slash only.  It
returns `some (a, b)` exactly when the input decomposes as
`a ++ '/' :: b` with `a` the non-empty slash-free part before the first
slash and `b` the non-empty remainder after it; it returns `none` in
every other case (no slash, leading slash, or trailing slash).  In
particular the quote part may itself contain further slashes. -/
theorem C10_parse_symbol_split (s a b : List Char) :
    parse_symbol s = some (a, b) ↔
      s = a ++ '/' :: b ∧ a ≠ [] ∧ b ≠ [] ∧ '/' ∉ a := by
  constructor
  · intro h
    unfold parse_symbol at h
    cases hfs : find_slash s with
    | none => rw [hfs] at h; cases h
    | some pos =>
      rw [hfs] at h
      replace h :
          (if pos = 0 ∨ pos = s.length - 1 then none
            else some (s.take pos, s.drop (pos + 1))) = some (a, b) := h
      by_cases hz : pos = 0 ∨ pos = s.length - 1
      · rw [if_pos hz] at h; cases h
      · rw [if_neg hz] at h
        push_neg at hz
        obtain ⟨u, v, hs, hu, hnu⟩ := find_slash_some s pos hfs
        rw [Option.some_inj, Prod.mk.injEq] at h
        obtain ⟨ha, hb⟩ := h
        have hsplit : u ++ '/' :: v = (u ++ ['/']) ++ v := by simp
        have htake : s.take pos = u := by
          rw [hs, ← hu]; simp
        have hdrop : s.drop (pos + 1) = v := by
          rw [hs, ← hu, hsplit]
          have : u.length + 1 = (u ++ ['/']).length := by simp
          rw [this]
          simp
        have hua : u = a := htake ▸ ha
        have hvb : v = b := hdrop ▸ hb
        subst hua; subst hvb
        refine ⟨hs, ?_, ?_, hnu⟩
        · intro hnil
          exact hz.1 (by rw [← hu, hnil]; rfl)
        · intro hnil
          apply hz.2
          rw [hs, ← hu, hnil]
          simp
  · rintro ⟨hs, ha, hb, hna⟩
    subst hs
    unfold parse_symbol
    rw [find_slash_append a b hna]
    have hlen : (a ++ '/' :: b).length = a.length + b.length + 1 := by
      simp; omega
    have hz : ¬ (a.length = 0 ∨ a.length = (a ++ '/' :: b).length - 1) := by
      push_neg
      constructor
      · intro h0
        exact ha (List.length_eq_zero.mp h0)
      · rw [hlen]
        have : b.length ≠ 0 := fun h0 => hb (List.length_eq_zero.mp h0)
        omega
    show (if a.length = 0 ∨ a.length = (a ++ '/' :: b).length - 1 then none
      else some ((a ++ '/' :: b).take a.length,
        (a ++ '/' :: b).drop (a.length + 1))) = some (a, b)
    rw [if_neg hz]
    have hsplit : a ++ '/' :: b = (a ++ ['/']) ++ b := by simp
    have htake : (a ++ '/' :: b).take a.length = a := by simp
    have hdrop : (a ++ '/' :: b).drop (a.length + 1) = b := by
      rw [hsplit]
      have : a.length + 1 = (a ++ ['/']).length := by simp
      rw [this]
      simp
    rw [htake, hdrop]

/-- Witness for C10: the double-slash symbol "A/B/C" is accepted, with
base "A" and quote "B/C". -/
theorem C10_parse_symbol_split_witness :
    parse_symbol ['A', '/', 'B', '/', 'C'] = some (['A'], ['B', '/', 'C']) := by
  exact (C10_parse_symbol_split ['A', '/', 'B', '/', 'C'] ['A']
    ['B', '/', 'C']).mpr (by refine ⟨rfl, by simp, by simp, by decide⟩)

/-! ## Claim C5: the diagonal of the price graph -/

/-- Claim C5 (amended): the constructor sets every in-range diagonal
entry of the price graph to `0`, observed or not -- `price_graph[u][u]`
is `0` for all `u < 4096` from construction, and unobserved nodes do
not carry a `+infinity` self-edge (`get_currency_index` itself never
writes the graph, as its embedding shows by type). -/
theorem C5_diag_amended (u : ℕ) (h : u < graphSize) :
    initial_graph_state.price_graph u u = some 0 := by
  simp [initial_graph_state, initGraph, h]

/-- Witness for the amended C5 at node 0. -/
theorem C5_diag_amended_witness :
    initial_graph_state.price_graph 0 0 = some 0 :=
  C5_diag_amended 0 (by norm_num [graphSize])

/-- Counterexample to C5 as stated: in the freshly constructed engine
node 5 has never been observed (no currency has been interned), yet its
self-edge is already `0`, not `+infinity` -- so "w(u,u) = 0 iff u
observed" fails in the unobserved direction. -/
theorem C5_diag_counterexample :
    initial_graph_state.price_graph 5 5 = some 0 ∧
    ¬ observed initial_graph_state.currency_indices 5 := by
  constructor
  · norm_num [initial_graph_state, initGraph, graphSize]
  · simp [observed, initial_graph_state]

/-! ## Claims C7 and C8: the ingress path -/

lemma update_price_mp (s : IngressState) (c : UpdateCall) :
    (update_price s c).2.stats.messages_processed =
      s.stats.messages_processed +
        (if (update_price s c).1 then 1 else 0) := by
  unfold update_price
  cases hq : s.tick_queue with
  | none => simp [hq]
  | some q =>
    by_cases hl : q.length < s.queue_capacity
    · simp [hq, hl]
    · simp [hq, hl]

lemma run_updates_mp (s : IngressState) (cs : List UpdateCall) :
    (run_updates s cs).2.stats.messages_processed =
      s.stats.messages_processed + (run_updates s cs).1.count true := by
  induction cs generalizing s with
  | nil => simp [run_updates]
  | cons c cs ih =>
    simp only [run_updates, List.count_cons]
    rw [ih, update_price_mp]
    cases hr : (update_price s c).1
    · simp [hr]
    · simp [hr]
      omega

/-- Claim C8: starting from the constructor's zeroed statistics, after
any sequence of `update_price` calls `messages_processed` equals
exactly the number of calls that returned `true`: it is bumped once per
successful submit, never by a failed one, and no other modelled
operation touches it. -/
theorem C8_messages_processed_count (s : IngressState)
    (cs : List UpdateCall) (h : s.stats.messages_processed = 0) :
    (run_updates s cs).2.stats.messages_processed =
      (run_updates s cs).1.count true := by
  rw [run_updates_mp, h, Nat.zero_add]

/-- Witness for C8: three submits against a capacity-2 queue -- two
succeed, the third is dropped, and the counter reads 2. -/
theorem C8_messages_processed_count_witness :
    (run_updates ⟨0, some [], 2, initStats⟩
        [⟨0, ['A', '/', 'B'], 1, 1, 0, 5⟩, ⟨0, ['A', '/', 'B'], 1, 1, 0, 5⟩,
         ⟨0, ['A', '/', 'B'], 1, 1, 0, 5⟩]).2.stats.messages_processed =
      (run_updates ⟨0, some [], 2, initStats⟩
        [⟨0, ['A', '/', 'B'], 1, 1, 0, 5⟩, ⟨0, ['A', '/', 'B'], 1, 1, 0, 5⟩,
         ⟨0, ['A', '/', 'B'], 1, 1, 0, 5⟩]).1.count true :=
  C8_messages_processed_count _ _ rfl

/-- Claim C7 (amended): when the enqueue attempt fails (null or full
queue) `update_price` returns `false` and leaves the statistics, the
queue and the capacity unchanged -- but it is not entirely side-effect
free: the sequence counter has already been consumed for the dropped
tick, so `sequence_counter` is incremented by every call, failed ones
included. -/
theorem C7_failure_no_stats_amended (s : IngressState) (c : UpdateCall)
    (h : (update_price s c).1 = false) :
    (update_price s c).2.stats = s.stats ∧
    (update_price s c).2.tick_queue = s.tick_queue ∧
    (update_price s c).2.queue_capacity = s.queue_capacity ∧
    (update_price s c).2.sequence_counter = s.sequence_counter + 1 := by
  unfold update_price at h ⊢
  cases hq : s.tick_queue with
  | none => simp [hq]
  | some q =>
    by_cases hl : q.length < s.queue_capacity
    · simp [hq, hl] at h
    · simp [hq, hl]

/-- Witness for the amended C7: a full capacity-1 queue rejects the
submit and leaves stats, queue and capacity unchanged while the
sequence counter moves from 7 to 8. -/
theorem C7_failure_no_stats_amended_witness :
    (update_price ⟨7, some [⟨0, [], 1, 1, 1, 0, 0⟩], 1, initStats⟩
        ⟨0, ['A'], 1, 1, 0, 5⟩).2.stats = initStats ∧
    (update_price ⟨7, some [⟨0, [], 1, 1, 1, 0, 0⟩], 1, initStats⟩
        ⟨0, ['A'], 1, 1, 0, 5⟩).2.tick_queue = some [⟨0, [], 1, 1, 1, 0, 0⟩] ∧
    (update_price ⟨7, some [⟨0, [], 1, 1, 1, 0, 0⟩], 1, initStats⟩
        ⟨0, ['A'], 1, 1, 0, 5⟩).2.queue_capacity = 1 ∧
    (update_price ⟨7, some [⟨0, [], 1, 1, 1, 0, 0⟩], 1, initStats⟩
        ⟨0, ['A'], 1, 1, 0, 5⟩).2.sequence_counter = 7 + 1 :=
  C7_failure_no_stats_amended ⟨7, some [⟨0, [], 1, 1, 1, 0, 0⟩], 1, initStats⟩
    ⟨0, ['A'], 1, 1, 0, 5⟩ (by decide)

/-- Counterexample to C7 as stated: a failed submit is not free of side
effects -- on a full queue the call returns `false` yet the sequence
counter has changed (7 became 8), so "all other engine state is
unchanged" is false. -/
theorem C7_seq_side_effect_counterexample :
    (update_price ⟨7, some [⟨0, [], 1, 1, 1, 0, 0⟩], 1, initStats⟩
        ⟨0, ['A'], 1, 1, 0, 5⟩).1 = false ∧
    (update_price ⟨7, some [⟨0, [], 1, 1, 1, 0, 0⟩], 1, initStats⟩
        ⟨0, ['A'], 1, 1, 0, 5⟩).2.sequence_counter ≠ 7 := by
  decide

/-! ## Claim C6: the opportunity rate limiter -/

lemma on_opportunity_detected_le (cap : ℕ) (now : ℚ) (s : RateState)
    (h : s.alerts_this_second ≤ cap) :
    ((on_opportunity_detected cap now s).2).alerts_this_second ≤ cap := by
  unfold on_opportunity_detected
  have h1 : (rate_reset now s).alerts_this_second ≤ cap := by
    unfold rate_reset
    by_cases hr : 1 ≤ now - s.last_alert
    · simp [hr]
    · simp [hr, h]
  by_cases hc : cap ≤ (rate_reset now s).alerts_this_second
  · simp [hc, h1]
  · simp [hc]
    omega

lemma rate_run_le (cap : ℕ) (s : RateState) (ts : List ℚ)
    (h : s.alerts_this_second ≤ cap) :
    ((rate_run cap s ts).2).alerts_this_second ≤ cap := by
  induction ts generalizing s with
  | nil => simpa [rate_run] using h
  | cons t ts ih =>
    simp only [rate_run]
    exact ih _ (on_opportunity_detected_le cap t s h)

/-- Claim C6 (amended): the limiter enforces a tumbling window anchored
at the last reset, not a sliding window: an opportunity is emitted only
while the counter of the current window is below
`max_opportunities_per_second`, and the counter (the number of
emissions since the window began) never exceeds the cap over any
sequence of calls.  A sliding one-second window straddling a reset can
still see up to twice the cap. -/
theorem C6_tumbling_window_amended (cap : ℕ) (s : RateState) (now : ℚ)
    (ts : List ℚ) (h : s.alerts_this_second ≤ cap) :
    ((on_opportunity_detected cap now s).1 = true →
      (rate_reset now s).alerts_this_second < cap) ∧
    ((rate_run cap s ts).2).alerts_this_second ≤ cap := by
  constructor
  · intro he
    unfold on_opportunity_detected at he
    by_cases hc : cap ≤ (rate_reset now s).alerts_this_second
    · simp [hc] at he
    · omega
  · exact rate_run_le cap s ts h

/-- Witness for the amended C6 on the boundary-straddling trace: the
per-window counter ends at 2 = cap. -/
theorem C6_tumbling_window_amended_witness :
    ((on_opportunity_detected 2 0 ⟨0, 0⟩).1 = true →
      (rate_reset 0 ⟨0, 0⟩).alerts_this_second < 2) ∧
    ((rate_run 2 ⟨0, 0⟩ [0, 9/10, 1, 21/20]).2).alerts_this_second ≤ 2 :=
  C6_tumbling_window_amended 2 ⟨0, 0⟩ 0 [0, 9/10, 1, 21/20] (by decide)

/-- Counterexample to C6 as stated: with cap 2 and the statics
initialised at the first call (time 0), the calls at times
0, 0.9, 1, 1.05 are all emitted -- at time 1 a full second has elapsed,
so the window resets and counting restarts.  The emissions at times
0.9, 1 and 1.05 all lie inside a sliding window of length 0.15 < 1
second, i.e. 3 > 2 emissions in one sliding one-second window. -/
theorem C6_sliding_window_counterexample :
    rate_run 2 ⟨0, 0⟩ [0, 9/10, 1, 21/20] =
      ([true, true, true, true], ⟨1, 2⟩) ∧
    (21/20 : ℚ) - 9/10 < 1 := by
  constructor
  · norm_num [rate_run, on_opportunity_detected, rate_reset]
  · norm_num

/-! ## Claim C3: the confidence score -/

/-- Claim C3 (code bug): `calculate_confidence` neither rounds nor
clips at 100 -- on a 3-node path with `|log_return| = 0.5` and fresh
data it returns `50 + 20 + 50 = 120 > 100`, although the
`ArbitrageOpportunity::confidence` field is documented as a "0-100
reliability score" and the spec requires `min(100, round(...))`. -/
theorem C3_confidence_overflow_bug :
    calculate_confidence [0, 1, 2] (-(1/2)) 0 = 120 ∧
    100 < calculate_confidence [0, 1, 2] (-(1/2)) 0 := by
  have h : calculate_confidence [0, 1, 2] (-(1/2)) 0 = 120 := by
    unfold calculate_confidence
    norm_num [abs, min_def, max_def]
  exact ⟨h, by rw [h]; norm_num⟩

/-! ## Lemmas about cycle extraction -/

lemma drop_until_length_le (a : ℕ) (l : List ℕ) :
    (drop_until a l).length ≤ l.length := by
  induction l with
  | nil => simp [drop_until]
  | cons x xs ih =>
    unfold drop_until
    by_cases hx : x = a
    · simp [hx]
    · simp only [if_neg hx, List.length_cons]
      omega

lemma drop_until_cons_of_mem (a : ℕ) (l : List ℕ) (h : a ∈ l) :
    ∃ t, drop_until a l = a :: t := by
  induction l with
  | nil => cases h
  | cons x xs ih =>
    unfold drop_until
    by_cases hx : x = a
    · exact ⟨xs, by simp [hx]⟩
    · have hxs : a ∈ xs := by
        cases List.mem_cons.mp h with
        | inl h2 => exact absurd h2.symm hx
        | inr h2 => exact h2
      simpa [hx] using ih hxs

lemma ratio_product_of_sum (g : Graph) (es : List (ℕ × ℕ)) (t : ℝ)
    (h : edge_weight_sum g es = some t) :
    ratio_product g es = some (Real.exp (-t)) := by
  induction es generalizing t with
  | nil =>
    replace h : some (0 : ℝ) = some t := h
    rw [Option.some_inj] at h
    subst h
    show some (1 : ℝ) = some (Real.exp (-0))
    rw [neg_zero, Real.exp_zero]
  | cons e es ih =>
    unfold edge_weight_sum at h
    unfold ratio_product
    cases hg : g e.1 e.2 with
    | none => rw [hg] at h; exact absurd h (by simp)
    | some w =>
      rw [hg] at h
      cases hs : edge_weight_sum g es with
      | none => rw [hs] at h; exact absurd h (by simp)
      | some s0 =>
        rw [hs] at h
        replace h : some (w + s0) = some t := h
        rw [Option.some_inj] at h
        rw [ih s0 hs]
        dsimp only
        rw [Option.some_inj, ← h, neg_add, Real.exp_add]

/-- Inversion of a successful `extract_arbitrage_cycle`: the trace-back
terminated on a revisited node, the walk has at least 3 nodes, the path
is the reversed suffix of the walk from the first occurrence of that
node, its recomputed log-return is finite with positive profit, and the
opportunity's fields are exactly as the function builds them. -/
lemma extract_some_elim {g : Graph} {parent : ℕ → Option ℕ}
    {fuel v : ℕ} {age mp : ℝ} {opp : ArbitrageOpportunity}
    (hex : extract_arbitrage_cycle g parent fuel v age mp = some opp) :
    ∃ walk current total,
      traceback parent fuel [] (some v) = some (walk, some current) ∧
      3 ≤ walk.length ∧ current ∈ walk ∧
      opp.path = (drop_until current walk).reverse ∧
      cycleSum g opp.path = some total ∧
      ¬ Real.exp (-total) - 1 ≤ 0 ∧
      opp = ⟨(drop_until current walk).reverse, Real.exp (-total) - 1,
        calculate_confidence ((drop_until current walk).reverse) total age,
        estimate_max_volume mp ((drop_until current walk).reverse)⟩ := by
  unfold extract_arbitrage_cycle at hex
  cases htb : traceback parent fuel [] (some v) with
  | none => rw [htb] at hex; exact absurd hex (by simp)
  | some pr =>
    rw [htb] at hex
    obtain ⟨walk, fin⟩ := pr
    cases fin with
    | none =>
      replace hex : (none : Option ArbitrageOpportunity) = some opp := hex
      cases hex
    | some current =>
      dsimp only at hex
      by_cases h3 : walk.length < 3
      · rw [if_pos h3] at hex; cases hex
      · rw [if_neg h3] at hex
        by_cases hm : current ∈ walk
        · rw [if_pos hm] at hex
          cases hcs : cycleSum g ((drop_until current walk).reverse) with
          | none =>
            rw [hcs] at hex
            replace hex : (none : Option ArbitrageOpportunity) = some opp :=
              hex
            cases hex
          | some total =>
            rw [hcs] at hex
            dsimp only at hex
            by_cases hp : Real.exp (-total) - 1 ≤ 0
            · rw [if_pos hp] at hex; cases hex
            · rw [if_neg hp] at hex
              rw [Option.some_inj] at hex
              refine ⟨walk, current, total, rfl, by omega, hm, ?_, ?_, hp,
                hex.symm⟩
              · rw [← hex]
              · rw [← hex]
                exact hcs
        · rw [if_neg hm] at hex; cases hex

/-- Claim C1: every opportunity emitted by the detection loop (passed
to `on_opportunity_detected`, i.e. surviving the `is_profitable`
filter) has `profit_percentage` strictly above the configured
threshold; its profit is positive; and the product of the edge
conversion ratios around its extracted cycle equals exactly
`1 + profit_percentage` (the idealised-real form of "within 1e-9"),
since the profit is recomputed as `exp(-Σ w) - 1` around the cycle and
a non-positive recomputed profit is never extracted. -/
theorem C1_emitted_profit_product (g : Graph) (parent : ℕ → Option ℕ)
    (fuel v : ℕ) (age mp θ : ℝ) (opps : List ArbitrageOpportunity)
    (st : PerformanceStats) (opp : ArbitrageOpportunity)
    (hex : extract_arbitrage_cycle g parent fuel v age mp = some opp)
    (hmem : opp ∈ (detect_arbitrage_step θ opps st).1) :
    θ < opp.profit_percentage ∧ 0 < opp.profit_percentage ∧
    cycleProd g opp.path = some (1 + opp.profit_percentage) := by
  obtain ⟨walk, current, total, htb, h3, hm, hpath, hsum, hp, hopp⟩ :=
    extract_some_elim hex
  have hmem2 : opp ∈ opps.filter
      (fun o => decide (θ < o.profit_percentage)) := by
    simpa [detect_arbitrage_step] using hmem
  have hθ : θ < opp.profit_percentage :=
    of_decide_eq_true (List.mem_filter.mp hmem2).2
  have hprofit : opp.profit_percentage = Real.exp (-total) - 1 := by
    rw [hopp]
  refine ⟨hθ, ?_, ?_⟩
  · rw [hprofit]
    push_neg at hp
    linarith
  · unfold cycleProd
    unfold cycleSum at hsum
    rw [ratio_product_of_sum g _ total hsum, Option.some_inj, hprofit]
    ring

/-- Claim C2 (amended): the "shorter than 3" rejection in
`extract_arbitrage_cycle` applies to the whole parent-pointer
trace-back walk, not to the extracted cycle itself: a successful
extraction guarantees the walk has at least 3 nodes, while the
extracted cycle path is only guaranteed non-empty and no longer than
the walk -- it can have just 2 nodes. -/
theorem C2_traceback_length_amended (g : Graph) (parent : ℕ → Option ℕ)
    (fuel v : ℕ) (age mp : ℝ) (opp : ArbitrageOpportunity)
    (walk : List ℕ) (fin : Option ℕ)
    (hex : extract_arbitrage_cycle g parent fuel v age mp = some opp)
    (htb : traceback parent fuel [] (some v) = some (walk, fin)) :
    3 ≤ walk.length ∧ 1 ≤ opp.path.length ∧
    opp.path.length ≤ walk.length := by
  obtain ⟨walk2, current, total, htb2, h3, hm, hpath, -, -, -⟩ :=
    extract_some_elim hex
  have heq : (walk2, some current) = (walk, fin) :=
    Option.some_inj.mp (htb2.symm.trans htb)
  have hw : walk2 = walk := congrArg Prod.fst heq
  subst hw
  obtain ⟨t, hdrop⟩ := drop_until_cons_of_mem current walk2 hm
  refine ⟨h3, ?_, ?_⟩
  · rw [hpath, List.length_reverse, hdrop]
    simp
  · rw [hpath, List.length_reverse]
    exact drop_until_length_le current walk2

/-- Claim C9 (amended): a cycle that is extracted but fails the profit
recompute (`exp(-total) - 1 ≤ 0`) is discarded silently --
`extract_arbitrage_cycle` returns `nothing` -- and `false_positives` is
NOT incremented: no modelled operation of the engine ever modifies it,
so it keeps its previous value. -/
theorem C9_no_increment_amended (g : Graph) (parent : ℕ → Option ℕ)
    (fuel v : ℕ) (age mp θ : ℝ) (walk : List ℕ) (current : ℕ) (t : ℝ)
    (opps : List ArbitrageOpportunity) (st : PerformanceStats)
    (htb : traceback parent fuel [] (some v) = some (walk, some current))
    (h3 : ¬ walk.length < 3) (hm : current ∈ walk)
    (ht : cycleSum g ((drop_until current walk).reverse) = some t)
    (hpos : 0 ≤ t) :
    extract_arbitrage_cycle g parent fuel v age mp = none ∧
    ((detect_arbitrage_step θ opps st).2).false_positives =
      st.false_positives := by
  constructor
  · unfold extract_arbitrage_cycle
    rw [htb]
    dsimp only
    rw [if_neg h3, if_pos hm, ht]
    dsimp only
    rw [if_pos]
    rw [sub_nonpos]
    exact Real.exp_le_one_iff.mpr (neg_nonpos.mpr hpos)
  · simp [detect_arbitrage_step]

/-! ## Concrete evaluations of the extractor -/

lemma cycleSum_g_C1 : cycleSum g_C1 [2, 1, 0] = some (-3) := by
  have he : cycle_edges [2, 1, 0] = [(2, 1), (1, 0), (0, 2)] := rfl
  unfold cycleSum
  rw [he]
  norm_num [edge_weight_sum, g_C1]

lemma extract_C1_eval :
    extract_arbitrage_cycle g_C1 p_C1 10 0 0 1000 =
      some ⟨[2, 1, 0], Real.exp 3 - 1,
        calculate_confidence [2, 1, 0] (-3) 0,
        estimate_max_volume 1000 [2, 1, 0]⟩ := by
  have hexp3 : (1 : ℝ) < Real.exp 3 := by
    nlinarith [Real.add_one_le_exp (3 : ℝ)]
  have htb : traceback p_C1 10 [] (some 0) = some ([0, 1, 2], some 0) := rfl
  unfold extract_arbitrage_cycle
  rw [htb]
  dsimp only
  rw [if_neg (by norm_num), if_pos (show (0 : ℕ) ∈ [0, 1, 2] by decide)]
  have hdrop : (drop_until 0 [0, 1, 2]).reverse = [2, 1, 0] := rfl
  rw [hdrop, cycleSum_g_C1]
  dsimp only
  rw [if_neg (by rw [neg_neg]; push_neg; linarith)]
  rw [Option.some_inj]
  norm_num

lemma cycleSum_g_C2 : cycleSum g_C2 [1, 2] = some (-2) := by
  have he : cycle_edges [1, 2] = [(1, 2), (2, 1)] := rfl
  unfold cycleSum
  rw [he]
  norm_num [edge_weight_sum, g_C2]

lemma extract_C2_eval :
    extract_arbitrage_cycle g_C2 p_C2 10 3 0 1000 =
      some ⟨[1, 2], Real.exp 2 - 1,
        calculate_confidence [1, 2] (-2) 0,
        estimate_max_volume 1000 [1, 2]⟩ := by
  have hexp2 : (1 : ℝ) < Real.exp 2 := by
    nlinarith [Real.add_one_le_exp (2 : ℝ)]
  have htb : traceback p_C2 10 [] (some 3) = some ([3, 2, 1], some 2) := rfl
  unfold extract_arbitrage_cycle
  rw [htb]
  dsimp only
  rw [if_neg (by norm_num), if_pos (show (2 : ℕ) ∈ [3, 2, 1] by decide)]
  have hdrop : (drop_until 2 [3, 2, 1]).reverse = [1, 2] := rfl
  rw [hdrop, cycleSum_g_C2]
  dsimp only
  rw [if_neg (by rw [neg_neg]; push_neg; linarith)]
  rw [Option.some_inj]
  norm_num

lemma cycleSum_g_C9 : cycleSum g_C9 [2, 1, 0] = some 3 := by
  have he : cycle_edges [2, 1, 0] = [(2, 1), (1, 0), (0, 2)] := rfl
  unfold cycleSum
  rw [he]
  norm_num [edge_weight_sum, g_C9]

/-! ## Witnesses and counterexamples for C1, C2 and C9 -/

/-- Witness for C1 on the concrete profitable triangle: the emitted
opportunity beats the default threshold 0.001, has positive profit, and
its cycle's ratio product is exactly one plus its profit. -/
theorem C1_emitted_profit_product_witness :
    (1/1000 : ℝ) < Real.exp 3 - 1 ∧ 0 < Real.exp 3 - 1 ∧
    cycleProd g_C1 [2, 1, 0] = some (1 + (Real.exp 3 - 1)) := by
  have hθ : (1/1000 : ℝ) < Real.exp 3 - 1 := by
    nlinarith [Real.add_one_le_exp (3 : ℝ)]
  have hmem :
      (⟨[2, 1, 0], Real.exp 3 - 1, calculate_confidence [2, 1, 0] (-3) 0,
        estimate_max_volume 1000 [2, 1, 0]⟩ : ArbitrageOpportunity) ∈
      (detect_arbitrage_step (1/1000)
        [⟨[2, 1, 0], Real.exp 3 - 1, calculate_confidence [2, 1, 0] (-3) 0,
          estimate_max_volume 1000 [2, 1, 0]⟩] initStats).1 := by
    simp only [detect_arbitrage_step]
    exact List.mem_filter.mpr ⟨List.mem_singleton_self _, decide_eq_true hθ⟩
  have h := C1_emitted_profit_product g_C1 p_C1 10 0 0 1000 (1/1000)
    [⟨[2, 1, 0], Real.exp 3 - 1, calculate_confidence [2, 1, 0] (-3) 0,
      estimate_max_volume 1000 [2, 1, 0]⟩] initStats
    ⟨[2, 1, 0], Real.exp 3 - 1, calculate_confidence [2, 1, 0] (-3) 0,
      estimate_max_volume 1000 [2, 1, 0]⟩ extract_C1_eval hmem
  exact ⟨h.1, h.2.1, h.2.2⟩

/-- Counterexample to C2 as stated: from the parent array `p_C2` (node
3 hanging off the 2-cycle `1 ↔ 2`) the extractor accepts a cycle whose
path has only 2 nodes, with profit `exp 2 - 1` far above the default
threshold -- so an opportunity with path length < 3 can be emitted. -/
theorem C2_short_cycle_counterexample :
    extract_arbitrage_cycle g_C2 p_C2 10 3 0 1000 =
      some ⟨[1, 2], Real.exp 2 - 1, calculate_confidence [1, 2] (-2) 0,
        estimate_max_volume 1000 [1, 2]⟩ ∧
    ([1, 2] : List ℕ).length < 3 ∧ (1/1000 : ℝ) < Real.exp 2 - 1 := by
  refine ⟨extract_C2_eval, by norm_num, ?_⟩
  nlinarith [Real.add_one_le_exp (2 : ℝ)]

/-- Witness for the amended C2 at the concrete 2-node extraction: the
trace-back walk has 3 nodes while the accepted path has 2. -/
theorem C2_traceback_length_amended_witness :
    3 ≤ ([3, 2, 1] : List ℕ).length ∧ 1 ≤ ([1, 2] : List ℕ).length ∧
    ([1, 2] : List ℕ).length ≤ ([3, 2, 1] : List ℕ).length :=
  C2_traceback_length_amended g_C2 p_C2 10 3 0 1000
    ⟨[1, 2], Real.exp 2 - 1, calculate_confidence [1, 2] (-2) 0,
      estimate_max_volume 1000 [1, 2]⟩ [3, 2, 1] (some 2)
    extract_C2_eval rfl

/-- Counterexample to C9 as stated: on the 3-cycle with weight `+1` per
edge the cycle is extracted but the profit recompute fails
(`exp(-3) - 1 < 0`), the cycle is discarded -- and `false_positives`
stays 0 after the detection step, not 1 as the claim requires. -/
theorem C9_false_positive_counterexample :
    extract_arbitrage_cycle g_C9 p_C9 10 0 0 1000 = none ∧
    ((detect_arbitrage_step (1/1000) [] initStats).2).false_positives
      = 0 := by
  constructor
  · unfold extract_arbitrage_cycle
    have htb : traceback p_C9 10 [] (some 0) = some ([0, 1, 2], some 0) := rfl
    rw [htb]
    dsimp only
    rw [if_neg (by norm_num), if_pos (show (0 : ℕ) ∈ [0, 1, 2] by decide)]
    have hdrop : (drop_until 0 [0, 1, 2]).reverse = [2, 1, 0] := rfl
    rw [hdrop, cycleSum_g_C9]
    dsimp only
    rw [if_pos]
    rw [sub_nonpos]
    exact Real.exp_le_one_iff.mpr (by norm_num)
  · simp [detect_arbitrage_step, initStats]

/-- Witness for the amended C9 at the concrete failing recompute. -/
theorem C9_no_increment_amended_witness :
    extract_arbitrage_cycle g_C9 p_C9 10 0 0 1000 = none ∧
    ((detect_arbitrage_step (1/1000) [] initStats).2).false_positives =
      initStats.false_positives :=
  C9_no_increment_amended g_C9 p_C9 10 0 0 1000 (1/1000) [0, 1, 2] 0 3 []
    initStats rfl (by norm_num) (by decide) cycleSum_g_C9 (by norm_num)

/-! ## Lemmas about the currency index -/

lemma lookup_index_lt (key : List Char) (l : List (List Char)) (i : ℕ)
    (h : lookup_index key l = some i) : i < l.length := by
  induction l generalizing i with
  | nil => cases h
  | cons k ks ih =>
    unfold lookup_index at h
    simp only [List.length_cons]
    by_cases hk : k = key
    · rw [if_pos hk, Option.some_inj] at h
      omega
    · rw [if_neg hk] at h
      obtain ⟨j, hj, hji⟩ := Option.map_eq_some'.mp h
      have hlt := ih j hj
      omega

lemma lookup_index_get (key : List Char) (l : List (List Char)) (i : ℕ)
    (h : lookup_index key l = some i) : l[i]? = some key := by
  induction l generalizing i with
  | nil => cases h
  | cons k ks ih =>
    unfold lookup_index at h
    by_cases hk : k = key
    · rw [if_pos hk, Option.some_inj] at h
      rw [← h]
      simp [hk]
    · rw [if_neg hk] at h
      obtain ⟨j, hj, hji⟩ := Option.map_eq_some'.mp h
      rw [← hji]
      simpa using ih j hj

lemma lookup_index_append_lt (key k : List Char) (l : List (List Char))
    (i : ℕ) (hne : key ≠ k) (h : lookup_index key (l ++ [k]) = some i) :
    i < l.length := by
  have hlt := lookup_index_lt _ _ _ h
  have hg := lookup_index_get _ _ _ h
  rw [List.length_append] at hlt
  rcases Nat.lt_or_ge i l.length with hi | hi
  · exact hi
  · exfalso
    have hieq : i = l.length := by simp at hlt; omega
    rw [hieq, List.getElem?_append_right (le_refl _)] at hg
    simp at hg
    exact hne hg.symm

lemma mkKey_ne (b q : List Char) (ex : ℕ) (h : b ≠ q) :
    mkKey b ex ≠ mkKey q ex := by
  intro he
  apply h
  unfold mkKey at he
  have hl : b.length = q.length := by
    have hc := congrArg List.length he
    simp only [List.length_append, List.length_cons] at hc
    omega
  exact (List.append_inj he hl).1

/-- Interning two distinct keys in sequence yields distinct node
indices (the second lookup happens after the first key may have been
appended). -/
lemma get_currency_index_ne (ix : CurrencyIndex) (b q : List Char)
    (ex : ℕ) (hkey : mkKey b ex ≠ mkKey q ex) :
    (get_currency_index ix b ex).1 ≠
      (get_currency_index (get_currency_index ix b ex).2 q ex).1 := by
  unfold get_currency_index
  cases h1 : lookup_index (mkKey b ex) ix.keys with
  | some i1 =>
    dsimp only
    cases h2 : lookup_index (mkKey q ex) ix.keys with
    | some i2 =>
      dsimp only
      intro heq
      have hg1 := lookup_index_get _ _ _ h1
      have hg2 := lookup_index_get _ _ _ h2
      rw [← heq] at hg2
      exact hkey (Option.some_inj.mp (hg1.symm.trans hg2))
    | none =>
      dsimp only
      have := lookup_index_lt _ _ _ h1
      omega
  | none =>
    dsimp only
    cases h2 : lookup_index (mkKey q ex) (ix.keys ++ [mkKey b ex]) with
    | some i2 =>
      dsimp only
      have := lookup_index_append_lt _ _ _ _ (Ne.symm hkey) h2
      omega
    | none =>
      dsimp only
      simp

/-! ## Claim C4: the graph-update round trip -/

/-- Claim C4 (amended): for a tick whose symbol parses into DISTINCT
base and quote currencies, with `bid > 0` and `ask > 0` and both
interned indices in range, the updated graph holds forward weight
`-log(bid)` on `base → quote` and reverse weight
`-log(1/ask) = log(ask)` on `quote → base` (so `bid = ask = 1` yields
weight 0 in both directions).  The distinctness proviso is forced: for
a degenerate same-currency symbol both writes land on one cell. -/
theorem C4_update_roundtrip_amended (s : GraphState) (t : MarketTick)
    (base quote : List Char) (bi qi : ℕ) (ix1 ix2 : CurrencyIndex)
    (hparse : parse_symbol t.symbol = some (base, quote))
    (hbq : base ≠ quote)
    (hb : get_currency_index s.currency_indices base t.exchange = (bi, ix1))
    (hq : get_currency_index ix1 quote t.exchange = (qi, ix2))
    (hbi : bi < graphSize) (hqi : qi < graphSize)
    (hbid : 0 < t.bid) (hask : 0 < t.ask) :
    (update_price_graph s t).price_graph bi qi =
      some (-Real.log (t.bid : ℝ)) ∧
    (update_price_graph s t).price_graph qi bi =
      some (Real.log (t.ask : ℝ)) := by
  have hne : bi ≠ qi := by
    have h := get_currency_index_ne s.currency_indices base quote t.exchange
      (mkKey_ne base quote t.exchange hbq)
    rw [hb] at h
    dsimp only at h
    rw [hq] at h
    exact h
  unfold update_price_graph
  rw [hparse]
  dsimp only
  rw [hb]
  dsimp only
  rw [hq]
  dsimp only
  rw [if_neg (by omega)]
  rw [if_pos hbid, if_pos hask]
  constructor
  · show set_edge (set_edge s.price_graph bi qi (-Real.log (t.bid : ℝ)))
        qi bi (-Real.log (1 / (t.ask : ℝ))) bi qi =
      some (-Real.log (t.bid : ℝ))
    unfold set_edge
    rw [if_neg (fun hc => hne hc.1), if_pos ⟨rfl, rfl⟩]
  · show set_edge (set_edge s.price_graph bi qi (-Real.log (t.bid : ℝ)))
        qi bi (-Real.log (1 / (t.ask : ℝ))) qi bi =
      some (Real.log (t.ask : ℝ))
    unfold set_edge
    rw [if_pos ⟨rfl, rfl⟩, Option.some_inj, one_div, Real.log_inv, neg_neg]

/-- Witness for the amended C4: submitting "A/B" with bid = ask = 1
into the fresh engine writes weight 0 on both directed edges. -/
theorem C4_update_roundtrip_amended_witness :
    (update_price_graph initial_graph_state tick_C4).price_graph 0 1 =
      some 0 ∧
    (update_price_graph initial_graph_state tick_C4).price_graph 1 0 =
      some 0 := by
  have h := C4_update_roundtrip_amended initial_graph_state tick_C4
    ['A'] ['B'] 0 1 ⟨[['A', '_', '0']]⟩ ⟨[['A', '_', '0'], ['B', '_', '0']]⟩
    rfl (by decide) rfl rfl (by norm_num [graphSize])
    (by norm_num [graphSize]) (by norm_num [tick_C4]) (by norm_num [tick_C4])
  constructor
  · rw [h.1]
    norm_num [tick_C4, Real.log_one]
  · rw [h.2]
    norm_num [tick_C4, Real.log_one]

/-- Counterexample to C4 as stated: the degenerate tick "A/A" with
`bid = ask = 2` satisfies the claim's hypotheses (it parses, both
prices are positive), yet after the update the cell holding the
"forward edge" (base and quote intern to the same index 0) carries
`log 2` -- the reverse write overwrote it -- and `log 2 ≠ -log(bid)`,
so the round-trip law fails without a base ≠ quote proviso. -/
theorem C4_same_currency_counterexample :
    parse_symbol tick_C4x.symbol = some (['A'], ['A']) ∧
    (0 : ℚ) < tick_C4x.bid ∧ (0 : ℚ) < tick_C4x.ask ∧
    (update_price_graph initial_graph_state tick_C4x).price_graph 0 0 =
      some (Real.log 2) ∧
    Real.log 2 ≠ -Real.log ((tick_C4x.bid : ℝ)) := by
  refine ⟨rfl, by norm_num [tick_C4x], by norm_num [tick_C4x], ?_, ?_⟩
  · unfold update_price_graph
    rw [show parse_symbol tick_C4x.symbol = some (['A'], ['A']) from rfl]
    dsimp only
    rw [show get_currency_index initial_graph_state.currency_indices ['A']
        tick_C4x.exchange = (0, ⟨[['A', '_', '0']]⟩) from rfl]
    dsimp only
    rw [show get_currency_index ⟨[['A', '_', '0']]⟩ ['A'] tick_C4x.exchange =
        (0, ⟨[['A', '_', '0']]⟩) from rfl]
    dsimp only
    rw [if_neg (by norm_num [graphSize])]
    rw [if_pos (by norm_num [tick_C4x] : (0 : ℚ) < tick_C4x.bid),
      if_pos (by norm_num [tick_C4x] : (0 : ℚ) < tick_C4x.ask)]
    show set_edge (set_edge initial_graph_state.price_graph 0 0
        (-Real.log ((tick_C4x.bid : ℝ)))) 0 0
        (-Real.log (1 / (tick_C4x.ask : ℝ))) 0 0 = some (Real.log 2)
    unfold set_edge
    rw [if_pos ⟨rfl, rfl⟩, Option.some_inj, one_div, Real.log_inv, neg_neg]
    norm_num [tick_C4x]
  · have hl2 : 0 < Real.log 2 := Real.log_pos (by norm_num)
    have hbid : ((tick_C4x.bid : ℝ)) = 2 := by norm_num [tick_C4x]
    rw [hbid]
    intro heq
    linarith

end ArbScan
